import Mathlib

/-!
Shallow embedding of the configuration-parsing subsystem of
`pkg/config/config.go` (package `config`), together with theorems that
settle the specified behavioural claims.

Modelling conventions:
* Go strings are modelled as `List Char` (`Str` below); `strings.Split`
  with a single-character separator is `List.splitOn`, which agrees with
  Go semantics: splitting the empty string yields one empty token.
* Go maps are modelled as association lists with an overwriting insert
  (`insertKV`); a Go `nil` map is `none`, a made map is `some`.
* Go methods that mutate the receiver and return an `error` become
  functions returning the updated record together with
  `Except e Unit`; errors are inductive types carrying exactly the data
  the corresponding `fmt.Errorf`/`errors.Wrapf` call formats in.
* The external collaborators (`SecretFetcher.Get`, `json.Unmarshal`)
  are parameters of the functions that call them.
-/

abbrev Str := List Char

/-- Overwriting insert for an association list, modelling Go map
assignment `m[k] = v`: an existing binding of `k` is replaced in place,
otherwise the new binding is appended. -/
def insertKV {α : Type} (k : Str) (v : α) : List (Str × α) → List (Str × α)
  | [] => [(k, v)]
  | (k', v') :: rest => if k' = k then (k, v) :: rest else (k', v') :: insertKV k v rest

/-- Association-list lookup, modelling Go map read `m[k]`. -/
def lookupKV {α : Type} (k : Str) : List (Str × α) → Option α
  | [] => none
  | (k', v') :: rest => if k' = k then some v' else lookupKV k rest

/-- `K8sSecret` from config.go: a kubernetes secret with `Data`
(map of string to byte slice) and `Type` (spelled `type` here because
`Type` is reserved in Lean). -/
structure K8sSecret where
  Data : List (Str × List Nat)
  type : Str
deriving DecidableEq, Repr

instance {ε α : Type} [DecidableEq ε] [DecidableEq α] : DecidableEq (Except ε α) :=
  fun x y =>
    match x, y with
    | .ok a, .ok b =>
      if h : a = b then .isTrue (by rw [h])
      else .isFalse (by intro c; cases c; exact h rfl)
    | .error a, .error b =>
      if h : a = b then .isTrue (by rw [h])
      else .isFalse (by intro c; cases c; exact h rfl)
    | .ok _, .error _ => .isFalse (by intro c; cases c)
    | .error _, .ok _ => .isFalse (by intro c; cases c)

/-- `K8sConfig` from config.go, restricted to the four parsed fields.
`none` models a Go `nil` map. -/
structure K8sConfig where
  GroupBindings : Option (List (Str × Str)) := none
  PrivilegedRepoWhitelist : List Str := []
  SecretInjections : Option (List (Str × K8sSecret)) := none
  Labels : Option (List (Str × Str)) := none
deriving DecidableEq, Repr

/-- Error returned by `ProcessPrivilegedRepos`:
`fmt.Errorf("malformed repo at offset %v: %v", i, pr)`. -/
inductive RepoErr where
  | malformedRepo (offset : Nat) (pr : Str)
deriving DecidableEq, Repr

/-- The validation loop of `ProcessPrivilegedRepos`: for each token, in
order, split on `/` and fail if the result does not have exactly two
parts. -/
def checkRepos : List Str → Nat → Except RepoErr Unit
  | [], _ => .ok ()
  | pr :: rest, i =>
    if (pr.splitOn '/').length = 2 then checkRepos rest (i + 1)
    else .error (.malformedRepo i pr)

/-- `(kc *K8sConfig) ProcessPrivilegedRepos(repostr string) error`:
assigns the comma-split of the input to `PrivilegedRepoWhitelist`, then
validates every token. -/
def K8sConfig.ProcessPrivilegedRepos (kc : K8sConfig) (repostr : Str) :
    K8sConfig × Except RepoErr Unit :=
  let wl := repostr.splitOn ','
  ({ kc with PrivilegedRepoWhitelist := wl }, checkRepos wl 0)

/-- Errors returned by `ProcessGroupBindings`: the two `fmt.Errorf`
calls, each carrying the loop offset and entry. -/
inductive GBErr where
  | malformedBinding (offset : Nat) (gb : Str)
  | emptyBinding (offset : Nat) (gb : Str)
deriving DecidableEq, Repr

/-- The loop body of `ProcessGroupBindings`, threading the map being
populated: empty entries are skipped; an entry that does not split on
`=` into exactly two parts is malformed; a part of length zero is an
empty binding; otherwise insert. -/
def processGBLoop : List Str → Nat → List (Str × Str) →
    List (Str × Str) × Except GBErr Unit
  | [], _, m => (m, .ok ())
  | gb :: rest, i, m =>
    if gb = [] then processGBLoop rest (i + 1) m
    else
      match gb.splitOn '=' with
      | [k, v] =>
        if k.length = 0 ∨ v.length = 0 then (m, .error (.emptyBinding i gb))
        else processGBLoop rest (i + 1) (insertKV k v m)
      | _ => (m, .error (.malformedBinding i gb))

/-- `(kc *K8sConfig) ProcessGroupBindings(gbstr string) error`: makes a
fresh map, then runs the loop over the comma-split input. -/
def K8sConfig.ProcessGroupBindings (kc : K8sConfig) (gbstr : Str) :
    K8sConfig × Except GBErr Unit :=
  let (m, r) := processGBLoop (gbstr.splitOn ',') 0 []
  ({ kc with GroupBindings := some m }, r)

/-- Errors returned by `ProcessLabels`: the zero-entry guard and the
malformed-label error carrying the entry and the whole input. -/
inductive LabelsErr where
  | emptyInput
  | malformedLabel (labelStr : Str) (labelsStr : Str)
deriving DecidableEq, Repr

/-- The loop body of `ProcessLabels`: each entry must split on `=` into
exactly two parts (which may be empty); the pair is inserted. -/
def processLabelsLoop (labelsStr : Str) : List Str → List (Str × Str) →
    List (Str × Str) × Except LabelsErr Unit
  | [], m => (m, .ok ())
  | labelStr :: rest, m =>
    match labelStr.splitOn '=' with
    | [key, value] => processLabelsLoop labelsStr rest (insertKV key value m)
    | _ => (m, .error (.malformedLabel labelStr labelsStr))

/-- `(kc *K8sConfig) ProcessLabels(labelsStr string) error`: makes a
fresh map, splits on `,`, rejects a zero-length token list, then runs
the loop. -/
def K8sConfig.ProcessLabels (kc : K8sConfig) (labelsStr : Str) :
    K8sConfig × Except LabelsErr Unit :=
  let labels := labelsStr.splitOn ','
  if labels.length = 0 then
    ({ kc with Labels := some [] }, .error .emptyInput)
  else
    let (m, r) := processLabelsLoop labelsStr labels []
    ({ kc with Labels := some m }, r)

/-- Errors returned by `ProcessSecretInjections`: the two `fmt.Errorf`
calls and the two `errors.Wrapf` wrappers carrying the cause. -/
inductive SecretErr where
  | malformedInjection (offset : Nat) (sstr : Str)
  | emptyInjection (offset : Nat) (sstr : Str)
  | fetchFailed (id : Str) (cause : Str)
  | decodeFailed (id : Str) (cause : Str)
deriving DecidableEq, Repr

/-- The loop body of `ProcessSecretInjections`, parameterized by the
`SecretFetcher.Get` capability and by `json.Unmarshal` into a
`K8sSecret`. -/
def processSILoop (get : Str → Except Str (List Nat))
    (unmarshal : List Nat → Except Str K8sSecret) :
    List Str → Nat → List (Str × K8sSecret) →
    List (Str × K8sSecret) × Except SecretErr Unit
  | [], _, m => (m, .ok ())
  | sstr :: rest, i, m =>
    if sstr = [] then processSILoop get unmarshal rest (i + 1) m
    else
      match sstr.splitOn '=' with
      | [name, id] =>
        if name.length = 0 ∨ id.length = 0 then (m, .error (.emptyInjection i sstr))
        else
          match get id with
          | .error e => (m, .error (.fetchFailed id e))
          | .ok val =>
            match unmarshal val with
            | .error e => (m, .error (.decodeFailed id e))
            | .ok secret =>
              processSILoop get unmarshal rest (i + 1) (insertKV name secret m)
      | _ => (m, .error (.malformedInjection i sstr))

/-- `(kc *K8sConfig) ProcessSecretInjections(sf SecretFetcher, injstr string) error`:
makes a fresh map, then runs the loop over the comma-split input. -/
def K8sConfig.ProcessSecretInjections (kc : K8sConfig)
    (get : Str → Except Str (List Nat))
    (unmarshal : List Nat → Except Str K8sSecret) (injstr : Str) :
    K8sConfig × Except SecretErr Unit :=
  let (m, r) := processSILoop get unmarshal (injstr.splitOn ',') 0 []
  ({ kc with SecretInjections := some m }, r)

/-- `AminoConfig` from config.go: three raw JSON strings and their
decoded string-to-string mappings. -/
structure AminoConfig where
  HelmChartToRepoRaw : Str
  HelmChartToRepo : Option (List (Str × Str)) := none
  AminoDeploymentToRepoRaw : Str
  AminoDeploymentToRepo : Option (List (Str × Str)) := none
  AminoJobToRepoRaw : Str
  AminoJobToRepo : Option (List (Str × Str)) := none
deriving DecidableEq, Repr

/-- Errors returned by `AminoConfig.Parse`, naming the field whose
decode failed and carrying the underlying decode error. -/
inductive AminoErr where
  | chart (cause : Str)
  | deployment (cause : Str)
  | job (cause : Str)
deriving DecidableEq, Repr

/-- `(a *AminoConfig) Parse() error`, parameterized by `json.Unmarshal`
into a string-to-string map: decodes the three raw fields in the fixed
order chart, deployment, job, stopping at the first failure. -/
def AminoConfig.Parse (unmarshal : Str → Except Str (List (Str × Str)))
    (a : AminoConfig) : AminoConfig × Except AminoErr Unit :=
  match unmarshal a.HelmChartToRepoRaw with
  | .error e => (a, .error (.chart e))
  | .ok m1 =>
    let a1 := { a with HelmChartToRepo := some m1 }
    match unmarshal a1.AminoDeploymentToRepoRaw with
    | .error e => (a1, .error (.deployment e))
    | .ok m2 =>
      let a2 := { a1 with AminoDeploymentToRepo := some m2 }
      match unmarshal a2.AminoJobToRepoRaw with
      | .error e => (a2, .error (.job e))
      | .ok m3 => ({ a2 with AminoJobToRepo := some m3 }, .ok ())

/-! ### Helper lemmas about `splitOn`, `insertKV` and `lookupKV` -/

/-- Splitting a list that does not contain the separator yields the
single whole list. -/
lemma splitOn_eq_single (c : Char) (l : Str) (h : c ∉ l) : l.splitOn c = [l] := by
  apply List.splitOnP_eq_single
  intro x hx hbeq
  exact h (by rwa [beq_iff_eq.mp hbeq] at hx)

/-- Splitting `k ++ c :: v` on `c` yields exactly `[k, v]` when neither
part contains `c`. -/
lemma splitOn_sep_pair (c : Char) (k v : Str) (hk : c ∉ k) (hv : c ∉ v) :
    (k ++ c :: v).splitOn c = [k, v] := by
  have h1 : ∀ x ∈ k, ¬((x == c) = true) := by
    intro x hx hbeq
    exact hk (by rwa [beq_iff_eq.mp hbeq] at hx)
  have h2 := splitOn_eq_single c v hv
  have := List.splitOnP_first (· == c) k h1 c (beq_self_eq_true c) v
  simp only [List.splitOn] at *
  rw [this, h2]

/-- The number of chunks produced by `splitOn` is the separator count
plus one. -/
lemma length_splitOn_eq_count (c : Char) (l : Str) :
    (l.splitOn c).length = l.count c + 1 := by
  induction l with
  | nil => rfl
  | cons x xs ih =>
    simp only [List.splitOn] at *
    rw [List.splitOnP_cons]
    by_cases hx : x = c
    · subst hx
      simp [List.count_cons, ih]
    · have : (x == c) = false := beq_false_of_ne hx
      simp [this, List.count_cons, ih, List.length_modifyHead, hx]

/-- `lookupKV` after an overwriting insert. -/
lemma lookupKV_insertKV {α : Type} (k k' : Str) (v : α) (m : List (Str × α)) :
    lookupKV k (insertKV k' v m) = if k' = k then some v else lookupKV k m := by
  induction m with
  | nil =>
    by_cases h : k' = k <;> simp [insertKV, lookupKV, h]
  | cons p rest ih =>
    obtain ⟨a, b⟩ := p
    by_cases ha : a = k'
    · subst ha
      by_cases h : a = k <;> simp [insertKV, lookupKV, h]
    · by_cases h : a = k
      · subst h
        have : ¬k' = a := fun hc => ha hc.symm
        simp [insertKV, lookupKV, ha, this]
      · simp [insertKV, lookupKV, ha, h, ih]

/-- Membership after an overwriting insert comes from the new pair or
from an old one. -/
lemma mem_insertKV {α : Type} (k : Str) (v : α) (m : List (Str × α)) (p : Str × α)
    (hp : p ∈ insertKV k v m) : p = (k, v) ∨ p ∈ m := by
  induction m with
  | nil => simpa [insertKV] using hp
  | cons q rest ih =>
    obtain ⟨a, b⟩ := q
    by_cases ha : a = k
    · subst ha
      simp only [insertKV, if_pos rfl] at hp
      rcases List.mem_cons.mp hp with h | h
      · exact Or.inl h
      · exact Or.inr (List.mem_cons_of_mem _ h)
    · simp only [insertKV, if_neg ha] at hp
      rcases List.mem_cons.mp hp with h | h
      · exact Or.inr (h ▸ List.mem_cons_self _ _)
      · rcases ih h with h' | h'
        · exact Or.inl h'
        · exact Or.inr (List.mem_cons_of_mem _ h')

/-- `lookupKV` over a left fold of overwriting inserts: the last
occurrence of the key among the folded pairs wins; failing that, the
initial map answers. -/
lemma lookupKV_foldl_insertKV {α : Type} (pairs : List (Str × α))
    (m0 : List (Str × α)) (k : Str) :
    lookupKV k (pairs.foldl (fun m p => insertKV p.1 p.2 m) m0) =
      match pairs.reverse.find? (fun p => decide (p.1 = k)) with
      | some p => some p.2
      | none => lookupKV k m0 := by
  induction pairs generalizing m0 with
  | nil => rfl
  | cons p rest ih =>
    simp only [List.foldl_cons, List.reverse_cons, List.find?_append]
    rw [ih]
    cases hf : rest.reverse.find? (fun p => decide (p.1 = k)) with
    | some q => simp [hf, Option.or]
    | none =>
      simp only [hf, Option.or]
      by_cases hk : p.1 = k
      · simp [List.find?, hk, lookupKV_insertKV]
      · simp [List.find?, hk, lookupKV_insertKV]

-- sanity checks against the Go test file (TestProcessLabels)
example :
    ((K8sConfig.ProcessLabels {} "acyl.dev/managed-by=nitro".toList).1.Labels =
      some [("acyl.dev/managed-by".toList, "nitro".toList)]) := by decide

example :
    ((K8sConfig.ProcessLabels {} "".toList).2 =
      .error (.malformedLabel [] [])) := by decide

example :
    ((K8sConfig.ProcessLabels {} "potato,onion".toList).2 =
      .error (.malformedLabel "potato".toList "potato,onion".toList)) := by decide

example :
    ((K8sConfig.ProcessGroupBindings {} "".toList).1.GroupBindings = some []) := by
  decide

/-! ### Loop lemmas for `ProcessLabels` -/

/-- The label loop can only fail with a malformed-label error, never
with the empty-input error. -/
lemma processLabelsLoop_ne_emptyInput (orig : Str) (ls : List Str)
    (m : List (Str × Str)) :
    (processLabelsLoop orig ls m).2 ≠ Except.error LabelsErr.emptyInput := by
  induction ls generalizing m with
  | nil => simp [processLabelsLoop]
  | cons l rest ih =>
    simp only [processLabelsLoop]
    split
    · exact ih _
    · simp

/-- If some entry in the list does not split on `=` into exactly two
parts, the label loop fails with a malformed-label error carrying such
an entry. -/
lemma processLabelsLoop_error (orig : Str) (ls : List Str)
    (m : List (Str × Str)) (l : Str) (hl : l ∈ ls)
    (hbad : (l.splitOn '=').length ≠ 2) :
    ∃ l', l' ∈ ls ∧ (l'.splitOn '=').length ≠ 2 ∧
      (processLabelsLoop orig ls m).2 = Except.error (.malformedLabel l' orig) := by
  induction ls generalizing m with
  | nil => cases hl
  | cons a rest ih =>
    simp only [processLabelsLoop]
    split
    · rename_i key value heq
      rcases List.mem_cons.mp hl with rfl | hrest
      · exact absurd (by rw [heq]; rfl) hbad
      · obtain ⟨l', hm, hlen, herr⟩ := ih (insertKV key value m) hrest
        exact ⟨l', List.mem_cons_of_mem _ hm, hlen, herr⟩
    · rename_i hne
      refine ⟨a, List.mem_cons_self _ _, ?_, rfl⟩
      intro h2
      match ha : a.splitOn '=', h2 with
      | [x, y], _ => exact hne x y ha

/-! ### Claim theorems for `ProcessLabels` -/

/-- C2: `ProcessLabels ""` returns an error (the malformed-label error
on the sole empty entry), and afterwards `Labels` is `some []`: a
non-nil mapping with no entries. -/
theorem processLabels_empty_input (kc : K8sConfig) :
    (kc.ProcessLabels []).2 = Except.error (.malformedLabel [] []) ∧
    (kc.ProcessLabels []).1.Labels = some [] :=
  ⟨rfl, rfl⟩

/-- C4: splitting any input on `,` yields at least one token, so
`ProcessLabels` never returns the at-least-one-label-should-be-provided
error: its zero-entry branch is unreachable. -/
theorem processLabels_emptyInput_unreachable (kc : K8sConfig) (s : Str) :
    (s.splitOn ',').length ≠ 0 ∧
    (kc.ProcessLabels s).2 ≠ Except.error LabelsErr.emptyInput := by
  have hne : s.splitOn ',' ≠ [] := by
    simp only [List.splitOn]
    exact List.splitOnP_ne_nil _ s
  constructor
  · simpa [List.length_eq_zero] using hne
  · unfold K8sConfig.ProcessLabels
    rw [if_neg (by simpa [List.length_eq_zero] using hne)]
    exact processLabelsLoop_ne_emptyInput s _ []

/-- C1 counterexample: the entry `"="` has an empty key and an empty
value, yet `ProcessLabels "="` succeeds and stores the pair, so an
entry with empty key or value is not rejected. -/
theorem processLabels_accepts_empty_parts :
    (K8sConfig.ProcessLabels {} ['=']).2 = Except.ok () ∧
    (K8sConfig.ProcessLabels {} ['=']).1.Labels = some [([], [])] := by
  decide

/-- C1 amended: for every entry of the comma-split input, if splitting
the entry on `=` does not yield exactly two parts (the parts may be
empty), `ProcessLabels` fails with a malformed-label error carrying an
offending fragment of the input. -/
theorem processLabels_malformed_entry (kc : K8sConfig) (s : Str) (l : Str)
    (hl : l ∈ s.splitOn ',') (hbad : (l.splitOn '=').length ≠ 2) :
    ∃ l', l' ∈ s.splitOn ',' ∧ (l'.splitOn '=').length ≠ 2 ∧
      (kc.ProcessLabels s).2 = Except.error (.malformedLabel l' s) := by
  have hne : s.splitOn ',' ≠ [] := by
    simp only [List.splitOn]
    exact List.splitOnP_ne_nil _ s
  unfold K8sConfig.ProcessLabels
  rw [if_neg (by simpa [List.length_eq_zero] using hne)]
  exact processLabelsLoop_error s _ [] l hl hbad

/-- C1 witness: `"potato,onion"` has the entry `"potato"` with no `=`,
and `ProcessLabels` indeed reports a malformed label. -/
theorem processLabels_malformed_entry_witness :
    ∃ l', l' ∈ ("potato,onion".toList).splitOn ',' ∧
      (l'.splitOn '=').length ≠ 2 ∧
      (K8sConfig.ProcessLabels {} "potato,onion".toList).2 =
        Except.error (.malformedLabel l' "potato,onion".toList) :=
  processLabels_malformed_entry {} "potato,onion".toList "potato".toList
    (by decide) (by decide)

/-! ### Claim theorems for `ProcessPrivilegedRepos` -/

/-- C10: `ProcessPrivilegedRepos` stores the full comma-split of its
input in `PrivilegedRepoWhitelist` before any validation, regardless of
the prior state of the field and of whether validation fails. -/
theorem processPrivilegedRepos_assigns_full_split (kc : K8sConfig) (repostr : Str) :
    (kc.ProcessPrivilegedRepos repostr).1.PrivilegedRepoWhitelist =
      repostr.splitOn ',' :=
  rfl

/-! ### Well-formed label inputs (C3) -/

/-- The textual form `key=value` of a pair. -/
def entryOf (p : Str × Str) : Str := p.1 ++ '=' :: p.2

/-- The comma-separated list of `key=value` entries built from a list
of pairs. -/
def labelsInput (pairs : List (Str × Str)) : Str :=
  [','].intercalate (pairs.map entryOf)

/-- On entries of the form `key=value` with `=`-free parts, the label
loop succeeds and the resulting map is the left fold of overwriting
inserts of the pairs. -/
lemma processLabelsLoop_wellformed (orig : Str) (pairs : List (Str × Str))
    (m : List (Str × Str)) (h : ∀ p ∈ pairs, '=' ∉ p.1 ∧ '=' ∉ p.2) :
    processLabelsLoop orig (pairs.map entryOf) m =
      (pairs.foldl (fun m p => insertKV p.1 p.2 m) m, Except.ok ()) := by
  induction pairs generalizing m with
  | nil => rfl
  | cons p rest ih =>
    obtain ⟨hk, hv⟩ := h p (List.mem_cons_self _ _)
    have hsplit : (entryOf p).splitOn '=' = [p.1, p.2] :=
      splitOn_sep_pair '=' p.1 p.2 hk hv
    simp only [List.map_cons, processLabelsLoop, hsplit, List.foldl_cons]
    exact ih _ (fun q hq => h q (List.mem_cons_of_mem _ hq))

/-- C3: on a comma-separated list of well-formed `key=value` pairs,
`ProcessLabels` succeeds and the `Labels` mapping contains exactly those
pairs, a later occurrence of a duplicate key overwriting the earlier
one (the lookup of any key is the value of its last occurrence). -/
theorem processLabels_wellformed_pairs (kc : K8sConfig)
    (pairs : List (Str × Str)) (hne : pairs ≠ [])
    (hchars : ∀ p ∈ pairs, ',' ∉ p.1 ∧ ',' ∉ p.2 ∧ '=' ∉ p.1 ∧ '=' ∉ p.2) :
    (kc.ProcessLabels (labelsInput pairs)).2 = Except.ok () ∧
    (kc.ProcessLabels (labelsInput pairs)).1.Labels =
      some (pairs.foldl (fun m p => insertKV p.1 p.2 m) []) ∧
    ∀ k, lookupKV k (pairs.foldl (fun m p => insertKV p.1 p.2 m) []) =
      match pairs.reverse.find? (fun p => decide (p.1 = k)) with
      | some p => some p.2
      | none => none := by
  have hx : ∀ e ∈ pairs.map entryOf, ',' ∉ e := by
    intro e he hce
    obtain ⟨p, hp, rfl⟩ := List.mem_map.mp he
    obtain ⟨h1, h2, _, _⟩ := hchars p hp
    rcases List.mem_append.mp hce with hc | hc
    · exact h1 hc
    · rcases List.mem_cons.mp hc with hc | hc
      · cases hc
      · exact h2 hc
  have hls : pairs.map entryOf ≠ [] := by
    simpa [List.map_eq_nil_iff] using hne
  have hsplit : (labelsInput pairs).splitOn ',' = pairs.map entryOf :=
    List.splitOn_intercalate (pairs.map entryOf) ',' hx hls
  have hloop := processLabelsLoop_wellformed (labelsInput pairs) pairs []
    (fun p hp => ⟨(hchars p hp).2.2.1, (hchars p hp).2.2.2⟩)
  have hlen : ¬((labelsInput pairs).splitOn ',').length = 0 := by
    rw [hsplit]
    simpa [List.length_eq_zero, List.map_eq_nil_iff] using hne
  constructor
  · unfold K8sConfig.ProcessLabels
    rw [if_neg hlen, hsplit, hloop]
  constructor
  · unfold K8sConfig.ProcessLabels
    rw [if_neg hlen, hsplit, hloop]
  · intro k
    rw [lookupKV_foldl_insertKV]
    cases pairs.reverse.find? (fun p => decide (p.1 = k)) <;> rfl

/-- C3 witness: the input `a=1,a=2` parses, and the later value for the
duplicate key `a` wins. -/
theorem processLabels_wellformed_pairs_witness :
    (K8sConfig.ProcessLabels {}
        (labelsInput [(['a'], ['1']), (['a'], ['2'])])).2 = Except.ok () ∧
    (K8sConfig.ProcessLabels {}
        (labelsInput [(['a'], ['1']), (['a'], ['2'])])).1.Labels =
      some ([(['a'], ['1']), (['a'], ['2'])].foldl
        (fun m p => insertKV p.1 p.2 m) []) ∧
    ∀ k, lookupKV k ([(['a'], ['1']), (['a'], ['2'])].foldl
        (fun m p => insertKV p.1 p.2 m) []) =
      match [(['a'], ['1']), (['a'], ['2'])].reverse.find?
          (fun p => decide (p.1 = k)) with
      | some p => some p.2
      | none => none :=
  processLabels_wellformed_pairs {} [(['a'], ['1']), (['a'], ['2'])]
    (by decide) (by decide)

-- concrete reading of the witness input and its last-write-wins result
example : labelsInput [(['a'], ['1']), (['a'], ['2'])] = "a=1,a=2".toList := by
  decide

example :
    (K8sConfig.ProcessLabels {} "a=1,a=2".toList).1.Labels =
      some [(['a'], ['2'])] := by decide

/-! ### Claim theorems for `ProcessPrivilegedRepos` (C5) -/

/-- If the repo validation loop succeeds, every token splits on `/`
into exactly two parts. -/
lemma checkRepos_ok_mem (ls : List Str) (i : Nat)
    (hok : checkRepos ls i = Except.ok ()) :
    ∀ pr ∈ ls, (pr.splitOn '/').length = 2 := by
  induction ls generalizing i with
  | nil => intro pr hpr; cases hpr
  | cons a rest ih =>
    intro pr hpr
    by_cases ha : (a.splitOn '/').length = 2
    · simp only [checkRepos, if_pos ha] at hok
      rcases List.mem_cons.mp hpr with rfl | h
      · exact ha
      · exact ih (i + 1) hok pr h
    · simp [checkRepos, if_neg ha] at hok

/-- C5 counterexample: `ProcessPrivilegedRepos "/"` succeeds, yet the
stored entry `"/"` has an empty owner segment and an empty repo
segment, so the invariant claimed for successful calls does not require
non-empty segments. -/
theorem processPrivilegedRepos_accepts_empty_segments :
    (K8sConfig.ProcessPrivilegedRepos {} ['/']).2 = Except.ok () ∧
    (K8sConfig.ProcessPrivilegedRepos {} ['/']).1.PrivilegedRepoWhitelist =
      [['/']] ∧
    ['/'].splitOn '/' = [[], []] := by
  decide

/-- C5 amended: after every successful call to
`ProcessPrivilegedRepos`, the whitelist is exactly the comma-split of
the input (entries in input order) and every entry contains exactly one
`/`; the two segments around it may be empty. -/
theorem processPrivilegedRepos_ok_invariant (kc : K8sConfig) (s : Str)
    (h : (kc.ProcessPrivilegedRepos s).2 = Except.ok ()) :
    (kc.ProcessPrivilegedRepos s).1.PrivilegedRepoWhitelist = s.splitOn ',' ∧
    ∀ pr ∈ (kc.ProcessPrivilegedRepos s).1.PrivilegedRepoWhitelist,
      pr.count '/' = 1 := by
  refine ⟨rfl, ?_⟩
  intro pr hm
  have h2 := checkRepos_ok_mem (s.splitOn ',') 0 h pr hm
  have h3 := length_splitOn_eq_count '/' pr
  omega

/-- C5 witness: a successful call on `org/repo,other/r` satisfies the
amended invariant. -/
theorem processPrivilegedRepos_ok_invariant_witness :
    (K8sConfig.ProcessPrivilegedRepos {} "org/repo,other/r".toList).1.PrivilegedRepoWhitelist =
      ("org/repo,other/r".toList).splitOn ',' ∧
    ∀ pr ∈ (K8sConfig.ProcessPrivilegedRepos {}
        "org/repo,other/r".toList).1.PrivilegedRepoWhitelist,
      pr.count '/' = 1 :=
  processPrivilegedRepos_ok_invariant {} "org/repo,other/r".toList (by decide)

/-! ### Loop lemmas for `ProcessGroupBindings` -/

/-- If every pair already in the map has non-empty key and value and
the binding loop succeeds, every pair of the final map has non-empty
key and value. -/
lemma processGBLoop_ok_inv (ls : List Str) (i : Nat) (m : List (Str × Str))
    (hm : ∀ p ∈ m, p.1 ≠ [] ∧ p.2 ≠ [])
    (hok : (processGBLoop ls i m).2 = Except.ok ()) :
    ∀ p ∈ (processGBLoop ls i m).1, p.1 ≠ [] ∧ p.2 ≠ [] := by
  induction ls generalizing i m with
  | nil => simpa [processGBLoop] using hm
  | cons gb rest ih =>
    by_cases hgb : gb = []
    · simp only [processGBLoop, if_pos hgb] at hok ⊢
      exact ih _ _ hm hok
    · rcases hsp : gb.splitOn '=' with _ | ⟨k, _ | ⟨v, _ | ⟨w, ws⟩⟩⟩
      · simp only [processGBLoop, if_neg hgb, hsp] at hok
        exact Except.noConfusion hok
      · simp only [processGBLoop, if_neg hgb, hsp] at hok
        exact Except.noConfusion hok
      · simp only [processGBLoop, if_neg hgb, hsp] at hok ⊢
        by_cases he : k.length = 0 ∨ v.length = 0
        · rw [if_pos he] at hok
          exact Except.noConfusion hok
        · rw [if_neg he] at hok ⊢
          refine ih _ _ ?_ hok
          intro p hp
          rcases mem_insertKV k v m p hp with rfl | hp'
          · push_neg at he
            exact ⟨List.length_eq_zero.not.mp (by simpa using he.1),
                   List.length_eq_zero.not.mp (by simpa using he.2)⟩
          · exact hm p hp'
      · simp only [processGBLoop, if_neg hgb, hsp] at hok
        exact Except.noConfusion hok

/-- A non-empty entry that is malformed or has an empty component makes
the binding loop fail with an error carrying the entry's offset
(relative to the starting index) and the raw entry. -/
lemma processGBLoop_bad_entry (ls : List Str) (i0 : Nat) (m : List (Str × Str))
    (gb : Str) (hmem : gb ∈ ls) (hne : gb ≠ [])
    (hbad : (gb.splitOn '=').length ≠ 2 ∨
      ∃ k v, gb.splitOn '=' = [k, v] ∧ (k = [] ∨ v = [])) :
    ∃ j gb', ls[j]? = some gb' ∧
      ((processGBLoop ls i0 m).2 = Except.error (.malformedBinding (i0 + j) gb') ∨
       (processGBLoop ls i0 m).2 = Except.error (.emptyBinding (i0 + j) gb')) := by
  induction ls generalizing i0 m with
  | nil => cases hmem
  | cons a rest ih =>
    by_cases ha : a = []
    · have hr : gb ∈ rest := by
        rcases List.mem_cons.mp hmem with rfl | h
        · exact absurd ha hne
        · exact h
      obtain ⟨j, gb', hj, herr⟩ := ih (i0 + 1) m hr
      refine ⟨j + 1, gb', by simpa using hj, ?_⟩
      have harith : i0 + (j + 1) = i0 + 1 + j := by omega
      rw [harith]
      simpa only [processGBLoop, if_pos ha] using herr
    · rcases hsp : a.splitOn '=' with _ | ⟨k, _ | ⟨v, _ | ⟨w, ws⟩⟩⟩
      · refine ⟨0, a, by simp, Or.inl ?_⟩
        simp only [processGBLoop, if_neg ha, hsp, Nat.add_zero]
      · refine ⟨0, a, by simp, Or.inl ?_⟩
        simp only [processGBLoop, if_neg ha, hsp, Nat.add_zero]
      · by_cases he : k.length = 0 ∨ v.length = 0
        · refine ⟨0, a, by simp, Or.inr ?_⟩
          simp only [processGBLoop, if_neg ha, hsp, if_pos he, Nat.add_zero]
        · have hr : gb ∈ rest := by
            rcases List.mem_cons.mp hmem with rfl | h
            · exfalso
              rcases hbad with hlen | ⟨k', v', hkv, hor⟩
              · exact hlen (by rw [hsp]; rfl)
              · rw [hsp] at hkv
                obtain ⟨rfl, rfl⟩ : k = k' ∧ v = v' := by
                  injection hkv with h1 h2
                  injection h2 with h2 h3
                  exact ⟨h1, h2⟩
                rcases hor with rfl | rfl
                · exact he (Or.inl rfl)
                · exact he (Or.inr rfl)
            · exact h
          obtain ⟨j, gb', hj, herr⟩ := ih (i0 + 1) (insertKV k v m) hr
          refine ⟨j + 1, gb', by simpa using hj, ?_⟩
          have harith : i0 + (j + 1) = i0 + 1 + j := by omega
          rw [harith]
          simpa only [processGBLoop, if_neg ha, hsp, if_neg he] using herr
      · refine ⟨0, a, by simp, Or.inl ?_⟩
        simp only [processGBLoop, if_neg ha, hsp, Nat.add_zero]

/-- The binding loop never reports an error whose raw fragment is the
empty entry: empty entries are skipped, not flagged. -/
lemma processGBLoop_error_fragment_ne_nil (ls : List Str) (i : Nat)
    (m : List (Str × Str)) (j : Nat) :
    (processGBLoop ls i m).2 ≠ Except.error (.malformedBinding j []) ∧
    (processGBLoop ls i m).2 ≠ Except.error (.emptyBinding j []) := by
  induction ls generalizing i m with
  | nil => simp [processGBLoop]
  | cons gb rest ih =>
    by_cases hgb : gb = []
    · simp only [processGBLoop, if_pos hgb]
      exact ih _ _
    · rcases hsp : gb.splitOn '=' with _ | ⟨k, _ | ⟨v, _ | ⟨w, ws⟩⟩⟩
      · simp only [processGBLoop, if_neg hgb, hsp]
        refine ⟨fun hc => ?_, fun hc => Except.noConfusion hc (fun hc' => GBErr.noConfusion hc')⟩
        injection hc with hc
        injection hc with h1 h2
        exact hgb h2
      · simp only [processGBLoop, if_neg hgb, hsp]
        refine ⟨fun hc => ?_, fun hc => Except.noConfusion hc (fun hc' => GBErr.noConfusion hc')⟩
        injection hc with hc
        injection hc with h1 h2
        exact hgb h2
      · simp only [processGBLoop, if_neg hgb, hsp]
        by_cases he : k.length = 0 ∨ v.length = 0
        · rw [if_pos he]
          refine ⟨fun hc => Except.noConfusion hc (fun hc' => GBErr.noConfusion hc'), fun hc => ?_⟩
          injection hc with hc
          injection hc with h1 h2
          exact hgb h2
        · rw [if_neg he]
          exact ih _ _
      · simp only [processGBLoop, if_neg hgb, hsp]
        refine ⟨fun hc => ?_, fun hc => Except.noConfusion hc (fun hc' => GBErr.noConfusion hc')⟩
        injection hc with hc
        injection hc with h1 h2
        exact hgb h2

/-! ### Claim theorems for `ProcessGroupBindings` (C6, C7) -/

/-- C6: after every successful call to `ProcessGroupBindings` the
mapping exists and every key and every value in it is non-empty; and
every non-empty comma-split entry that is malformed or has an empty
component makes the call fail with an error carrying that entry's
offset and raw fragment. -/
theorem processGroupBindings_invariants (kc : K8sConfig) (s : Str) :
    ((kc.ProcessGroupBindings s).2 = Except.ok () →
      ∃ m, (kc.ProcessGroupBindings s).1.GroupBindings = some m ∧
        ∀ p ∈ m, p.1 ≠ [] ∧ p.2 ≠ []) ∧
    (∀ gb ∈ s.splitOn ',', gb ≠ [] →
      ((gb.splitOn '=').length ≠ 2 ∨
        ∃ k v, gb.splitOn '=' = [k, v] ∧ (k = [] ∨ v = [])) →
      ∃ i gb', (s.splitOn ',')[i]? = some gb' ∧
        ((kc.ProcessGroupBindings s).2 = Except.error (.malformedBinding i gb') ∨
         (kc.ProcessGroupBindings s).2 = Except.error (.emptyBinding i gb'))) := by
  constructor
  · intro hok
    refine ⟨(processGBLoop (s.splitOn ',') 0 []).1, rfl, ?_⟩
    exact processGBLoop_ok_inv (s.splitOn ',') 0 [] (by simp) hok
  · intro gb hmem hne hbad
    obtain ⟨j, gb', hj, herr⟩ :=
      processGBLoop_bad_entry (s.splitOn ',') 0 [] gb hmem hne hbad
    rw [Nat.zero_add] at herr
    exact ⟨j, gb', hj, herr⟩

/-- C6 witness: `a=b` succeeds with the non-empty invariant, and in
`a=b,=c` the entry `=c` (offset 1, empty key) makes the call fail with
an error carrying that offset and fragment. -/
theorem processGroupBindings_invariants_witness :
    (∃ m, (K8sConfig.ProcessGroupBindings {} "a=b".toList).1.GroupBindings = some m ∧
      ∀ p ∈ m, p.1 ≠ [] ∧ p.2 ≠ []) ∧
    ∃ i gb', (("a=b,=c".toList).splitOn ',')[i]? = some gb' ∧
      ((K8sConfig.ProcessGroupBindings {} "a=b,=c".toList).2 =
          Except.error (.malformedBinding i gb') ∨
       (K8sConfig.ProcessGroupBindings {} "a=b,=c".toList).2 =
          Except.error (.emptyBinding i gb')) :=
  ⟨(processGroupBindings_invariants {} "a=b".toList).1 (by decide),
   (processGroupBindings_invariants {} "a=b,=c".toList).2 ("=c".toList)
     (by decide) (by decide) (Or.inr ⟨[], ['c'], by decide, Or.inl rfl⟩)⟩

/-- C7: `ProcessGroupBindings ""` succeeds and leaves `GroupBindings`
as an empty (non-nil) mapping; the loop skips an empty entry outright,
and no error ever carries the empty fragment, so empty entries are
never treated as malformed. -/
theorem processGroupBindings_empty_entries_skipped (kc : K8sConfig) (s : Str) :
    ((kc.ProcessGroupBindings []).2 = Except.ok () ∧
     (kc.ProcessGroupBindings []).1.GroupBindings = some []) ∧
    (∀ rest i m, processGBLoop ([] :: rest) i m = processGBLoop rest (i + 1) m) ∧
    (∀ j, (kc.ProcessGroupBindings s).2 ≠ Except.error (.malformedBinding j []) ∧
          (kc.ProcessGroupBindings s).2 ≠ Except.error (.emptyBinding j [])) := by
  refine ⟨⟨rfl, rfl⟩, fun rest i m => rfl, fun j => ?_⟩
  exact processGBLoop_error_fragment_ne_nil (s.splitOn ',') 0 [] j

/-- C7 witness: the empty-input case, read off by applying the claim
theorem at a concrete configuration. -/
theorem processGroupBindings_empty_entries_skipped_witness :
    (K8sConfig.ProcessGroupBindings {} []).2 = Except.ok () ∧
    (K8sConfig.ProcessGroupBindings {} []).1.GroupBindings = some [] :=
  (processGroupBindings_empty_entries_skipped {} []).1
/-! ### Claim theorems for `ProcessSecretInjections` (C8) -/

/-- The outcome of fetching an identifier and decoding the returned
bytes, composing the two per-entry external calls of the injection
loop: `some` exactly when both succeed. -/
def decodeVia (get : Str → Except Str (List Nat))
    (unmarshal : List Nat → Except Str K8sSecret) (id : Str) : Option K8sSecret :=
  match get id with
  | .error _ => none
  | .ok val =>
    match unmarshal val with
    | .error _ => none
    | .ok s => some s

/-- One resolved iteration of the injection loop: insert the decoded
record under the entry name. -/
def resolvedInsert (get : Str → Except Str (List Nat))
    (unmarshal : List Nat → Except Str K8sSecret)
    (m : List (Str × K8sSecret)) (p : Str × Str) : List (Str × K8sSecret) :=
  match decodeVia get unmarshal p.2 with
  | some s => insertKV p.1 s m
  | none => m

/-- A prefix of well-formed entries whose identifiers all fetch and
decode runs through the injection loop, folding its decoded records
into the map and advancing the offset, before the loop reaches the
remaining tokens. -/
lemma processSILoop_prefix_ok (get : Str → Except Str (List Nat))
    (unmarshal : List Nat → Except Str K8sSecret)
    (pre : List (Str × Str)) (tail : List Str) (i0 : Nat)
    (m : List (Str × K8sSecret))
    (hchars : ∀ p ∈ pre, p.1 ≠ [] ∧ p.2 ≠ [] ∧ '=' ∉ p.1 ∧ '=' ∉ p.2)
    (hpre : ∀ p ∈ pre, (decodeVia get unmarshal p.2).isSome = true) :
    processSILoop get unmarshal (pre.map entryOf ++ tail) i0 m =
      processSILoop get unmarshal tail (i0 + pre.length)
        (pre.foldl (resolvedInsert get unmarshal) m) := by
  induction pre generalizing i0 m with
  | nil =>
    simp only [List.map_nil, List.nil_append, List.length_nil, Nat.add_zero,
      List.foldl_nil]
  | cons p pre' ih =>
    obtain ⟨hn, hi, hen, hei⟩ := hchars p (List.mem_cons_self _ _)
    have hsome := hpre p (List.mem_cons_self _ _)
    have hsp : (entryOf p).splitOn '=' = [p.1, p.2] :=
      splitOn_sep_pair '=' p.1 p.2 hen hei
    have hne : ¬(entryOf p = []) := by simp [entryOf]
    have hlen : ¬(p.1.length = 0 ∨ p.2.length = 0) := by
      push_neg
      exact ⟨by simpa [List.length_eq_zero] using hn,
             by simpa [List.length_eq_zero] using hi⟩
    cases hg : get p.2 with
    | error e => simp [decodeVia, hg] at hsome
    | ok val =>
      cases hu : unmarshal val with
      | error e => simp [decodeVia, hg, hu] at hsome
      | ok s =>
        have hri : resolvedInsert get unmarshal m p = insertKV p.1 s m := by
          simp [resolvedInsert, decodeVia, hg, hu]
        simp only [List.map_cons, List.cons_append, processSILoop, if_neg hne,
          hsp, if_neg hlen, hg, hu, List.foldl_cons, hri, List.length_cons,
          List.append_eq]
        rw [ih _ _ (fun q hq => hchars q (List.mem_cons_of_mem _ hq))
            (fun q hq => hpre q (List.mem_cons_of_mem _ hq))]
        have harith : i0 + 1 + pre'.length = i0 + (pre'.length + 1) := by omega
        rw [harith]

/-- `lookupKV` over a left fold of resolved inserts, when every folded
identifier resolves: the last occurrence of the key wins and its
identifier's decoded record answers; failing that, the initial map
answers. -/
lemma lookupKV_foldl_resolvedInsert (get : Str → Except Str (List Nat))
    (unmarshal : List Nat → Except Str K8sSecret)
    (pairs : List (Str × Str)) (m0 : List (Str × K8sSecret)) (k : Str)
    (hall : ∀ p ∈ pairs, (decodeVia get unmarshal p.2).isSome = true) :
    lookupKV k (pairs.foldl (resolvedInsert get unmarshal) m0) =
      match pairs.reverse.find? (fun p => decide (p.1 = k)) with
      | some p => decodeVia get unmarshal p.2
      | none => lookupKV k m0 := by
  induction pairs generalizing m0 with
  | nil => rfl
  | cons p rest ih =>
    have hsome := hall p (List.mem_cons_self _ _)
    obtain ⟨s, hs⟩ := Option.isSome_iff_exists.mp hsome
    simp only [List.foldl_cons, List.reverse_cons, List.find?_append]
    rw [ih _ (fun q hq => hall q (List.mem_cons_of_mem _ hq))]
    cases hf : rest.reverse.find? (fun p => decide (p.1 = k)) with
    | some q => simp [Option.or]
    | none =>
      simp only [Option.or]
      have hri : resolvedInsert get unmarshal m0 p = insertKV p.1 s m0 := by
        simp [resolvedInsert, hs]
      rw [hri, lookupKV_insertKV]
      by_cases hk : p.1 = k
      · simp [List.find?, hk, hs]
      · simp [List.find?, hk]

/-- The error result of `ProcessSecretInjections` is that of the
injection loop on the comma-split input. -/
lemma processSecretInjections_snd (kc : K8sConfig)
    (get : Str → Except Str (List Nat))
    (unmarshal : List Nat → Except Str K8sSecret) (injstr : Str) :
    (kc.ProcessSecretInjections get unmarshal injstr).2 =
      (processSILoop get unmarshal (injstr.splitOn ',') 0 []).2 :=
  rfl

/-- The `SecretInjections` field after `ProcessSecretInjections` is the
final map of the injection loop on the comma-split input. -/
lemma processSecretInjections_field (kc : K8sConfig)
    (get : Str → Except Str (List Nat))
    (unmarshal : List Nat → Except Str K8sSecret) (injstr : Str) :
    (kc.ProcessSecretInjections get unmarshal injstr).1.SecretInjections =
      some ((processSILoop get unmarshal (injstr.splitOn ',') 0 []).1) :=
  rfl

/-- C8: over any comma-separated list of well-formed `name=id` entries:
if every processed identifier fetches and decodes, the call succeeds
and each name maps to the decoded record of its identifier's last
occurrence; if the entry at any position is reached (all earlier
entries resolve) and its fetch fails, the call fails with a fetch error
wrapping that cause and the identifier; if its fetch succeeds but the
bytes do not decode, the call fails with a decode error wrapping that
cause and the identifier. -/
theorem processSecretInjections_per_entry (kc : K8sConfig)
    (get : Str → Except Str (List Nat))
    (unmarshal : List Nat → Except Str K8sSecret)
    (pairs : List (Str × Str)) (hne : pairs ≠ [])
    (hchars : ∀ p ∈ pairs, p.1 ≠ [] ∧ p.2 ≠ [] ∧
      ',' ∉ p.1 ∧ ',' ∉ p.2 ∧ '=' ∉ p.1 ∧ '=' ∉ p.2) :
    ((∀ p ∈ pairs, (decodeVia get unmarshal p.2).isSome = true) →
       (kc.ProcessSecretInjections get unmarshal
           ([','].intercalate (pairs.map entryOf))).2 = Except.ok () ∧
       ∃ m, (kc.ProcessSecretInjections get unmarshal
           ([','].intercalate (pairs.map entryOf))).1.SecretInjections = some m ∧
         ∀ k, lookupKV k m =
           match pairs.reverse.find? (fun p => decide (p.1 = k)) with
           | some p => decodeVia get unmarshal p.2
           | none => none) ∧
    (∀ pre n i post e, pairs = pre ++ (n, i) :: post →
       (∀ p ∈ pre, (decodeVia get unmarshal p.2).isSome = true) →
       get i = Except.error e →
       (kc.ProcessSecretInjections get unmarshal
           ([','].intercalate (pairs.map entryOf))).2 =
         Except.error (.fetchFailed i e)) ∧
    (∀ pre n i post val e, pairs = pre ++ (n, i) :: post →
       (∀ p ∈ pre, (decodeVia get unmarshal p.2).isSome = true) →
       get i = Except.ok val → unmarshal val = Except.error e →
       (kc.ProcessSecretInjections get unmarshal
           ([','].intercalate (pairs.map entryOf))).2 =
         Except.error (.decodeFailed i e)) := by
  have hx : ∀ e ∈ pairs.map entryOf, ',' ∉ e := by
    intro e he hce
    obtain ⟨p, hp, rfl⟩ := List.mem_map.mp he
    obtain ⟨_, _, h1, h2, _, _⟩ := hchars p hp
    rcases List.mem_append.mp hce with hc | hc
    · exact h1 hc
    · rcases List.mem_cons.mp hc with hc | hc
      · cases hc
      · exact h2 hc
  have hls : pairs.map entryOf ≠ [] := by
    simpa [List.map_eq_nil_iff] using hne
  have hsplit : ([','].intercalate (pairs.map entryOf)).splitOn ',' =
      pairs.map entryOf :=
    List.splitOn_intercalate (pairs.map entryOf) ',' hx hls
  have hchars' : ∀ p ∈ pairs, p.1 ≠ [] ∧ p.2 ≠ [] ∧ '=' ∉ p.1 ∧ '=' ∉ p.2 :=
    fun p hp => ⟨(hchars p hp).1, (hchars p hp).2.1,
      (hchars p hp).2.2.2.2.1, (hchars p hp).2.2.2.2.2⟩
  refine ⟨?_, ?_, ?_⟩
  · intro hall
    have hloop : processSILoop get unmarshal (pairs.map entryOf) 0 [] =
        (pairs.foldl (resolvedInsert get unmarshal) [], Except.ok ()) := by
      have h := processSILoop_prefix_ok get unmarshal pairs [] 0 [] hchars' hall
      simpa [processSILoop] using h
    refine ⟨?_, pairs.foldl (resolvedInsert get unmarshal) [], ?_, ?_⟩
    · rw [processSecretInjections_snd, hsplit, hloop]
    · rw [processSecretInjections_field, hsplit, hloop]
    · intro k
      rw [lookupKV_foldl_resolvedInsert get unmarshal pairs [] k hall]
      cases pairs.reverse.find? (fun p => decide (p.1 = k)) <;> rfl
  · intro pre n i post e hpairs hpre he
    subst hpairs
    obtain ⟨hn, hi, hen, hei⟩ := hchars' (n, i) (by simp)
    have hsp : (entryOf (n, i)).splitOn '=' = [n, i] :=
      splitOn_sep_pair '=' n i hen hei
    have hnne : ¬(entryOf (n, i) = []) := by simp [entryOf]
    have hlen : ¬(n.length = 0 ∨ i.length = 0) := by
      push_neg
      exact ⟨by simpa [List.length_eq_zero] using hn,
             by simpa [List.length_eq_zero] using hi⟩
    have hmap : (pre ++ (n, i) :: post).map entryOf =
        pre.map entryOf ++ (entryOf (n, i) :: post.map entryOf) := by
      simp
    have hpref := processSILoop_prefix_ok get unmarshal pre
      (entryOf (n, i) :: post.map entryOf) 0 []
      (fun p hp => hchars' p (List.mem_append_left _ hp)) hpre
    rw [processSecretInjections_snd, hsplit, hmap, hpref]
    simp only [processSILoop, if_neg hnne, hsp, if_neg hlen, he]
  · intro pre n i post val e hpairs hpre hg hu
    subst hpairs
    obtain ⟨hn, hi, hen, hei⟩ := hchars' (n, i) (by simp)
    have hsp : (entryOf (n, i)).splitOn '=' = [n, i] :=
      splitOn_sep_pair '=' n i hen hei
    have hnne : ¬(entryOf (n, i) = []) := by simp [entryOf]
    have hlen : ¬(n.length = 0 ∨ i.length = 0) := by
      push_neg
      exact ⟨by simpa [List.length_eq_zero] using hn,
             by simpa [List.length_eq_zero] using hi⟩
    have hmap : (pre ++ (n, i) :: post).map entryOf =
        pre.map entryOf ++ (entryOf (n, i) :: post.map entryOf) := by
      simp
    have hpref := processSILoop_prefix_ok get unmarshal pre
      (entryOf (n, i) :: post.map entryOf) 0 []
      (fun p hp => hchars' p (List.mem_append_left _ hp)) hpre
    rw [processSecretInjections_snd, hsplit, hmap, hpref]
    simp only [processSILoop, if_neg hnne, hsp, if_neg hlen, hg, hu]

/-- A concrete fetcher for exercising `ProcessSecretInjections`: knows
`secret-id` (good payload) and `bad-bytes` (payload its decoder will
reject). -/
def getStub (i : Str) : Except Str (List Nat) :=
  if i = "secret-id".toList then Except.ok [123]
  else if i = "bad-bytes".toList then Except.ok [9]
  else Except.error "fetch failure".toList

/-- A concrete decoder for exercising `ProcessSecretInjections`:
decodes the single payload `[123]`. -/
def unmarshalStub (b : List Nat) : Except Str K8sSecret :=
  if b = [123] then Except.ok ⟨[(['k'], [118])], "opaque".toList⟩
  else Except.error "decode failure".toList

/-- C8 witness: on two-entry inputs, all-success stores both decoded
records with last-write-wins lookups; a fetch failure on the second
entry is wrapped with its identifier and cause; a decode failure on the
second entry is wrapped with its identifier and cause. -/
theorem processSecretInjections_per_entry_witness :
    ((K8sConfig.ProcessSecretInjections {} getStub unmarshalStub
        ([','].intercalate ([("db".toList, "secret-id".toList),
          (['d', '2'], "secret-id".toList)].map entryOf))).2 = Except.ok () ∧
      ∃ m, (K8sConfig.ProcessSecretInjections {} getStub unmarshalStub
          ([','].intercalate ([("db".toList, "secret-id".toList),
            (['d', '2'], "secret-id".toList)].map entryOf))).1.SecretInjections =
          some m ∧
        ∀ k, lookupKV k m =
          match [("db".toList, "secret-id".toList),
              (['d', '2'], "secret-id".toList)].reverse.find?
              (fun p => decide (p.1 = k)) with
          | some p => decodeVia getStub unmarshalStub p.2
          | none => none) ∧
    (K8sConfig.ProcessSecretInjections {} getStub unmarshalStub
        ([','].intercalate ([("db".toList, "secret-id".toList),
          (['d', '2'], ['z'])].map entryOf))).2 =
      Except.error (.fetchFailed ['z'] "fetch failure".toList) ∧
    (K8sConfig.ProcessSecretInjections {} getStub unmarshalStub
        ([','].intercalate ([("db".toList, "secret-id".toList),
          (['d', '2'], "bad-bytes".toList)].map entryOf))).2 =
      Except.error (.decodeFailed "bad-bytes".toList "decode failure".toList) :=
  ⟨(processSecretInjections_per_entry {} getStub unmarshalStub
      [("db".toList, "secret-id".toList), (['d', '2'], "secret-id".toList)]
      (by decide) (by decide)).1 (by decide),
   (processSecretInjections_per_entry {} getStub unmarshalStub
      [("db".toList, "secret-id".toList), (['d', '2'], ['z'])]
      (by decide) (by decide)).2.1
     [("db".toList, "secret-id".toList)] ['d', '2'] ['z'] []
     "fetch failure".toList rfl (by decide) (by decide),
   (processSecretInjections_per_entry {} getStub unmarshalStub
      [("db".toList, "secret-id".toList), (['d', '2'], "bad-bytes".toList)]
      (by decide) (by decide)).2.2
     [("db".toList, "secret-id".toList)] ['d', '2'] "bad-bytes".toList []
     [9] "decode failure".toList rfl (by decide) (by decide) (by decide)⟩

-- the witness inputs are the literal comma-separated strings
example :
    [','].intercalate ([("db".toList, "secret-id".toList),
      (['d', '2'], ['z'])].map entryOf) = "db=secret-id,d2=z".toList := by
  decide

example :
    (K8sConfig.ProcessSecretInjections {} getStub unmarshalStub
        "db=secret-id".toList).1.SecretInjections =
      some [("db".toList, ⟨[(['k'], [118])], "opaque".toList⟩)] := by
  decide

/-! ### Claim theorem for `AminoConfig.Parse` (C9) -/

/-- C9: `Parse` decodes the raw fields in the fixed order chart,
deployment, job and fails fast: the first decode error is returned,
naming the failing field, and the mappings after the failing one are
left unchanged. -/
theorem aminoParse_fail_fast (u : Str → Except Str (List (Str × Str)))
    (a : AminoConfig) :
    (∀ e, u a.HelmChartToRepoRaw = Except.error e →
       AminoConfig.Parse u a = (a, Except.error (.chart e))) ∧
    (∀ m1 e, u a.HelmChartToRepoRaw = Except.ok m1 →
       u a.AminoDeploymentToRepoRaw = Except.error e →
       AminoConfig.Parse u a =
         ({ a with HelmChartToRepo := some m1 },
          Except.error (.deployment e))) ∧
    (∀ m1 m2 e, u a.HelmChartToRepoRaw = Except.ok m1 →
       u a.AminoDeploymentToRepoRaw = Except.ok m2 →
       u a.AminoJobToRepoRaw = Except.error e →
       AminoConfig.Parse u a =
         ({ a with HelmChartToRepo := some m1, AminoDeploymentToRepo := some m2 },
          Except.error (.job e))) := by
  refine ⟨?_, ?_, ?_⟩
  · intro e h1
    simp only [AminoConfig.Parse, h1]
  · intro m1 e h1 h2
    simp only [AminoConfig.Parse, h1, h2]
  · intro m1 m2 e h1 h2 h3
    simp only [AminoConfig.Parse, h1, h2, h3]

/-- A concrete decoder for exercising `AminoConfig.Parse`: rejects the
single raw string `bad`. -/
def decodeStub (s : Str) : Except Str (List (Str × Str)) :=
  if s = "bad".toList then Except.error "oops".toList else Except.ok []

/-- A concrete `AminoConfig` whose deployment field fails to decode
under `decodeStub`. -/
def aminoStub : AminoConfig :=
  { HelmChartToRepoRaw := "good".toList,
    AminoDeploymentToRepoRaw := "bad".toList,
    AminoJobToRepoRaw := "later".toList }

/-- C9 witness: with a decoder that rejects the deployment field, the
parse stops there, reports the deployment field, and the job mapping is
left untouched (still absent). -/
theorem aminoParse_fail_fast_witness :
    AminoConfig.Parse decodeStub aminoStub =
      ({ aminoStub with HelmChartToRepo := some [] },
       Except.error (.deployment "oops".toList)) :=
  (aminoParse_fail_fast decodeStub aminoStub).2.1 [] "oops".toList
    (by decide) (by decide)
